import Mathlib

/-!
Shallow embedding of the capacity allocation engine of the
employee-management backend: the `Assignment` data model of
src/models/assignment.model.js, its `checkAvailability` static and its
`allocationPercentage` validator, the `User` model of
src/models/user.model.js, and the assignment write routes of
src/routes/assignment.routes.js.  Calendar days are modelled as
integers (the source works at whole-day granularity, stepping `Date`
values one day at a time and keying the timeline by the ISO calendar
date); Mongo ObjectIds are modelled as `Nat`.
-/

namespace EmpMgmt

/-- The `Assignment` document of src/models/assignment.model.js:
`engineerId`, `projectId`, `allocationPercentage` (a number),
`startDate` and `endDate` (calendar days), `role`.  `id` models the
Mongo `_id`. -/
structure Assignment where
  id : Nat
  engineerId : Nat
  projectId : Nat
  allocationPercentage : Int
  startDate : Int
  endDate : Int
  role : String
deriving Repr, DecidableEq

/-- The `User` document of src/models/user.model.js.  `maxCapacity` is
the engineer capacity field (min 0, max 100, default 100); `role` is
the string enum with values engineer and manager. -/
structure User where
  id : Nat
  email : String
  password : String
  name : String
  role : String
  skills : List String
  seniority : Option String
  maxCapacity : Int
  department : Option String
deriving Repr, DecidableEq

/-- `Map.get` on the insertion-ordered timeline map (a JS `Map`),
modelled as an association list from day to accumulated percentage. -/
def mapGet (m : List (Int × Int)) (k : Int) : Option Int :=
  (m.find? (fun p => p.1 == k)).map (fun p => p.2)

/-- `Map.set` of the JS `Map`: when the key is already present the
entry is updated in place (keeping its original insertion position),
otherwise the new entry is appended. -/
def mapSet (m : List (Int × Int)) (k v : Int) : List (Int × Int) :=
  if m.any (fun p => p.1 == k) then
    m.map (fun p => if p.1 == k then (k, v) else p)
  else
    m ++ [(k, v)]

/-- The days visited by the loop
`let current = new Date(a.startDate); while (current <= a.endDate) ...
current.setDate(current.getDate() + 1)` of checkAvailability
(assignment.model.js lines 87 to 95): `s, s + 1, ..., e`, empty when
`e < s`. -/
def dayRange (s e : Int) : List Int :=
  (List.range (e + 1 - s).toNat).map (fun (i : Nat) => s + (i : Int))

/-- One iteration of the day loop:
`timelineMap.set(dateKey, (timelineMap.get(dateKey) || 0) + a.allocationPercentage)`
(assignment.model.js lines 90 to 93). -/
def addDay (pct : Int) (m : List (Int × Int)) (d : Int) : List (Int × Int) :=
  mapSet m d ((mapGet m d).getD 0 + pct)

/-- The body of `assignments.forEach` in checkAvailability: walk every
day of the assignment range (the full range, not clipped to the query
window) and accumulate its `allocationPercentage`. -/
def addAssignment (m : List (Int × Int)) (a : Assignment) : List (Int × Int) :=
  (dayRange a.startDate a.endDate).foldl (addDay a.allocationPercentage) m

/-- The `timelineMap` built by checkAvailability over the queried
assignments (assignment.model.js lines 85 to 96). -/
def buildTimeline (assignments : List Assignment) : List (Int × Int) :=
  assignments.foldl addAssignment []

/-- The Mongo query filter of checkAvailability (assignment.model.js
lines 79 to 83): same engineer, `startDate <= endDate` of the window
and `endDate >= startDate` of the window. -/
def overlapsQuery (engineerId : Nat) (s e : Int) (a : Assignment) : Bool :=
  a.engineerId == engineerId && decide (a.startDate ≤ e) && decide (s ≤ a.endDate)

/-- The availability verdict returned by checkAvailability:
`isAvailable` plus the `allocations` object (`Object.fromEntries` of
the timeline map, which keeps the insertion order of the keys). -/
structure Verdict where
  isAvailable : Bool
  allocations : List (Int × Int)
deriving Repr, DecidableEq

/-- `Assignment.checkAvailability(engineerId, startDate, endDate)` of
assignment.model.js lines 78 to 102, with the assignment collection
passed explicitly in place of the Mongo `this.find`:
query the overlapping assignments of the engineer, build the day-keyed
timeline, and report `isAvailable` iff every accumulated value is
strictly below 100. -/
def checkAvailability (stored : List Assignment) (engineerId : Nat)
    (startDate endDate : Int) : Verdict :=
  let assignments := stored.filter (overlapsQuery engineerId startDate endDate)
  let timelineMap := buildTimeline assignments
  { isAvailable := timelineMap.all (fun p => decide (p.2 < 100)),
    allocations := timelineMap }

/-- The custom `allocationPercentage` validator of
assignment.model.js lines 27 to 48, with the collection passed
explicitly: when the document is new or the percentage was modified,
sum the full `allocationPercentage` of every other assignment of the
same engineer whose range overlaps this document range, add `value`,
and accept iff the total is at most 100; otherwise accept. -/
def allocationValidator (stored : List Assignment) (self : Assignment)
    (value : Int) (isNew modifiedAllocation : Bool) : Bool :=
  if isNew || modifiedAllocation then
    let currentAssignments := stored.filter (fun a =>
      a.engineerId == self.engineerId && !(a.id == self.id) &&
      decide (a.startDate ≤ self.endDate) && decide (self.startDate ≤ a.endDate))
    let totalAllocation :=
      currentAssignments.foldl (fun sum a => sum + a.allocationPercentage) 0 + value
    decide (totalAllocation ≤ 100)
  else
    true

/-- The `endDate` validator of assignment.model.js lines 57 to 62:
`value > this.startDate`. -/
def endDateValidator (a : Assignment) : Bool :=
  decide (a.startDate < a.endDate)

/-- The schema bounds `min: 0, max: 100` on `allocationPercentage`. -/
def percentageRangeValid (v : Int) : Bool :=
  decide (0 ≤ v) && decide (v ≤ 100)

/-- The body of a PATCH request to /:id (assignment.routes.js lines
125 to 174): the four updatable fields, each optional. -/
structure UpdateBody where
  allocationPercentage : Option Int
  startDate : Option Int
  endDate : Option Int
  role : Option String
deriving Repr, DecidableEq

/-- Outcome of the PATCH /:id handler, restricted to the
capacity-relevant path (authentication and the manager-ownership guard
are orthogonal request validation elided from the model). -/
inductive UpdateResult where
  | notFound : UpdateResult
  | capacityConflict : List (Int × Int) → UpdateResult
  | validationError : UpdateResult
  | ok : List Assignment → UpdateResult
deriving Repr, DecidableEq

/-- The PATCH /:id handler of assignment.routes.js lines 125 to 174,
with the collection passed explicitly.  Faithful points: the capacity
pre-check runs only under the JS truthiness test
`if (req.body.allocationPercentage)` (absent or zero skips it); it
calls checkAvailability on the engineer and the CURRENT dates of the
assignment, with no exclusion of the assignment itself and without the
new value; then the fields are assigned and `save` runs the schema
validators, where the custom allocation validator fires only when the
percentage value actually changed (`isModified`). -/
def patchAssignment (stored : List Assignment) (id : Nat)
    (body : UpdateBody) : UpdateResult :=
  match stored.find? (fun a => a.id == id) with
  | none => UpdateResult.notFound
  | some assignment =>
    let routeConflict : Option (List (Int × Int)) :=
      match body.allocationPercentage with
      | some v =>
        if v == 0 then none
        else
          let availability :=
            checkAvailability stored assignment.engineerId
              assignment.startDate assignment.endDate
          if availability.isAvailable then none else some availability.allocations
      | none => none
    match routeConflict with
    | some allocations => UpdateResult.capacityConflict allocations
    | none =>
      let updated : Assignment :=
        { assignment with
          allocationPercentage :=
            body.allocationPercentage.getD assignment.allocationPercentage,
          startDate := body.startDate.getD assignment.startDate,
          endDate := body.endDate.getD assignment.endDate,
          role := body.role.getD assignment.role }
      let modifiedAllocation :=
        !(updated.allocationPercentage == assignment.allocationPercentage)
      if percentageRangeValid updated.allocationPercentage &&
          endDateValidator updated &&
          allocationValidator stored updated updated.allocationPercentage
            false modifiedAllocation then
        UpdateResult.ok (stored.map (fun a => if a.id == id then updated else a))
      else
        UpdateResult.validationError

/-- Outcome of the POST / handler, restricted to the capacity-relevant
path (project and engineer existence checks elided). -/
inductive CreateResult where
  | capacityConflict : List (Int × Int) → CreateResult
  | validationError : CreateResult
  | ok : List Assignment → CreateResult
deriving Repr, DecidableEq

/-- The POST / handler of assignment.routes.js lines 21 to 73, with
the collection passed explicitly: checkAvailability on the proposed
window (note: the candidate percentage plays no part in it), reject on
a negative verdict, otherwise `save` runs the schema validators with
`isNew = true`. -/
def createAssignment (stored : List Assignment) (candidate : Assignment) :
    CreateResult :=
  let availability :=
    checkAvailability stored candidate.engineerId
      candidate.startDate candidate.endDate
  if !availability.isAvailable then
    CreateResult.capacityConflict availability.allocations
  else if percentageRangeValid candidate.allocationPercentage &&
      endDateValidator candidate &&
      allocationValidator stored candidate candidate.allocationPercentage
        true true then
    CreateResult.ok (stored ++ [candidate])
  else
    CreateResult.validationError

/-- Whether assignment `a` covers calendar day `d`
(`startDate ≤ d ≤ endDate`). -/
def coversDay (a : Assignment) (d : Int) : Bool :=
  decide (a.startDate ≤ d) && decide (d ≤ a.endDate)

/-- The per-engineer per-day invariant quantity of the spec: the sum of
`allocationPercentage` over all stored assignments of engineer `eng`
covering day `d`. -/
def dayTotal (stored : List Assignment) (eng : Nat) (d : Int) : Int :=
  ((stored.filter (fun a => a.engineerId == eng && coversDay a d)).map
    (fun a => a.allocationPercentage)).sum

/-- The day total of a list of assignments, engineer filter already
applied. -/
def dayTotalList (l : List Assignment) (d : Int) : Int :=
  ((l.filter (fun a => coversDay a d)).map (fun a => a.allocationPercentage)).sum

/-- Modelled from the spec (section 8, testable properties): the value
the spec claims for `allocations[day]` in the availability evaluation,
namely the exact sum over stored assignments covering the day plus the
candidate percentage when the day falls inside the candidate window.
The source checkAvailability accepts no candidate percentage, so this
definition follows the words of the spec, for comparison. -/
def specAllocationWithCandidate (stored : List Assignment) (eng : Nat)
    (s e candPct d : Int) : Int :=
  dayTotal stored eng d + (if s ≤ d ∧ d ≤ e then candPct else 0)

/-- The key list of a timeline map. -/
def keysOf (m : List (Int × Int)) : List Int :=
  m.map Prod.fst

theorem mapGet_cons (p : Int × Int) (t : List (Int × Int)) (k : Int) :
    mapGet (p :: t) k = if p.1 = k then some p.2 else mapGet t k := by
  by_cases h : p.1 = k
  · rw [if_pos h]
    unfold mapGet
    rw [List.find?_cons_of_pos _ (by simpa using h)]
    rfl
  · rw [if_neg h]
    unfold mapGet
    rw [List.find?_cons_of_neg _ (by simpa using h)]

theorem mapGet_update_ne (m : List (Int × Int)) (k v k' : Int) (hne : k' ≠ k) :
    mapGet (m.map (fun p => if p.1 == k then (k, v) else p)) k' = mapGet m k' := by
  induction m with
  | nil => rfl
  | cons p t ih =>
    by_cases hp : p.1 = k
    · have h1 : ((p :: t).map (fun q => if q.1 == k then (k, v) else q)) =
          (k, v) :: t.map (fun q => if q.1 == k then (k, v) else q) := by
        rw [List.map_cons]
        congr 1
        simp [hp]
      rw [h1, mapGet_cons, mapGet_cons,
        if_neg (show ¬(((k, v) : Int × Int).1 = k') by
          intro h
          have hkk : k = k' := by simpa using h
          exact hne hkk.symm),
        if_neg (show ¬(p.1 = k') by
          intro h
          exact hne (by rw [← h, hp]))]
      exact ih
    · have h1 : ((p :: t).map (fun q => if q.1 == k then (k, v) else q)) =
          p :: t.map (fun q => if q.1 == k then (k, v) else q) := by
        rw [List.map_cons]
        congr 1
        simp [hp]
      rw [h1, mapGet_cons, mapGet_cons]
      by_cases hpk : p.1 = k'
      · rw [if_pos hpk, if_pos hpk]
      · rw [if_neg hpk, if_neg hpk]
        exact ih

theorem mapGet_update_self (m : List (Int × Int)) (k v : Int)
    (hany : m.any (fun p => p.1 == k) = true) :
    mapGet (m.map (fun p => if p.1 == k then (k, v) else p)) k = some v := by
  induction m with
  | nil => simp at hany
  | cons p t ih =>
    by_cases hp : p.1 = k
    · have h1 : ((p :: t).map (fun q => if q.1 == k then (k, v) else q)) =
          (k, v) :: t.map (fun q => if q.1 == k then (k, v) else q) := by
        rw [List.map_cons]
        congr 1
        simp [hp]
      rw [h1, mapGet_cons, if_pos rfl]
    · have h1 : ((p :: t).map (fun q => if q.1 == k then (k, v) else q)) =
          p :: t.map (fun q => if q.1 == k then (k, v) else q) := by
        rw [List.map_cons]
        congr 1
        simp [hp]
      have ht : t.any (fun q => q.1 == k) = true := by
        have := hany
        simp only [List.any_cons, Bool.or_eq_true, beq_iff_eq] at this
        rcases this with h | h
        · exact absurd h hp
        · simpa using h
      rw [h1, mapGet_cons, if_neg hp]
      exact ih ht

theorem mapGet_mapSet (m : List (Int × Int)) (k v k' : Int) :
    mapGet (mapSet m k v) k' = if k' = k then some v else mapGet m k' := by
  unfold mapSet
  by_cases hany : m.any (fun p => p.1 == k) = true
  · rw [if_pos hany]
    by_cases hk : k' = k
    · rw [if_pos hk, hk]
      exact mapGet_update_self m k v hany
    · rw [if_neg hk]
      exact mapGet_update_ne m k v k' hk
  · rw [if_neg hany]
    by_cases hk : k' = k
    · rw [if_pos hk]
      subst hk
      have hnone : m.find? (fun p => p.1 == k') = none := by
        rw [List.find?_eq_none]
        intro p hp hpe
        exact hany (by simp only [List.any_eq_true]; exact ⟨p, hp, hpe⟩)
      unfold mapGet
      rw [List.find?_append, hnone]
      simp
    · rw [if_neg hk]
      unfold mapGet
      rw [List.find?_append]
      have hlast : ([((k, v) : Int × Int)]).find? (fun p => p.1 == k') = none := by
        rw [List.find?_eq_none]
        intro p hp
        simp only [List.mem_singleton] at hp
        subst hp
        intro hb
        have hkk : k = k' := by simpa using hb
        exact hk hkk.symm
      rw [hlast]
      cases m.find? (fun p => p.1 == k') <;> rfl

theorem keysOf_mapSet (m : List (Int × Int)) (k v : Int) :
    keysOf (mapSet m k v) =
      if m.any (fun p => p.1 == k) = true then keysOf m else keysOf m ++ [k] := by
  unfold mapSet keysOf
  by_cases hany : m.any (fun p => p.1 == k) = true
  · rw [if_pos hany, if_pos hany, List.map_map]
    apply List.map_congr_left
    intro p _
    by_cases hp : p.1 = k
    · simp [hp]
    · simp [hp]
  · rw [if_neg hany, if_neg hany]
    simp

theorem not_mem_keysOf_of_not_any (m : List (Int × Int)) (k : Int)
    (hany : ¬(m.any (fun p => p.1 == k) = true)) : k ∉ keysOf m := by
  intro hk
  rcases List.mem_map.mp hk with ⟨p, hp, hpk⟩
  exact hany (by simp only [List.any_eq_true]; exact ⟨p, hp, by simp [hpk]⟩)

theorem nodup_keysOf_mapSet (m : List (Int × Int)) (k v : Int)
    (h : (keysOf m).Nodup) : (keysOf (mapSet m k v)).Nodup := by
  rw [keysOf_mapSet]
  by_cases hany : m.any (fun p => p.1 == k) = true
  · rw [if_pos hany]; exact h
  · rw [if_neg hany]
    have hk := not_mem_keysOf_of_not_any m k hany
    simp only [List.nodup_append, List.nodup_cons, List.not_mem_nil, not_false_iff,
      List.nodup_nil, List.disjoint_singleton]
    exact ⟨h, by simp, by simpa using hk⟩

theorem mem_dayRange (s e d : Int) : d ∈ dayRange s e ↔ s ≤ d ∧ d ≤ e := by
  unfold dayRange
  constructor
  · intro h
    rcases List.mem_map.mp h with ⟨i, hi, hd⟩
    rw [List.mem_range] at hi
    omega
  · intro h
    refine List.mem_map.mpr ⟨(d - s).toNat, ?_, ?_⟩
    · rw [List.mem_range]
      omega
    · omega

theorem nodup_dayRange (s e : Int) : (dayRange s e).Nodup := by
  unfold dayRange
  refine List.Nodup.map ?_ (List.nodup_range _)
  intro a b h
  have h2 : s + (a : Int) = s + (b : Int) := h
  omega

theorem mapGet_addDay (pct : Int) (m : List (Int × Int)) (dd d : Int) :
    mapGet (addDay pct m dd) d =
      if d = dd then some ((mapGet m dd).getD 0 + pct) else mapGet m d := by
  unfold addDay
  rw [mapGet_mapSet]

theorem keysOf_addDay_nodup (pct : Int) (m : List (Int × Int)) (dd : Int)
    (h : (keysOf m).Nodup) : (keysOf (addDay pct m dd)).Nodup :=
  nodup_keysOf_mapSet m dd _ h

theorem mapGet_foldl_addDay (pct : Int) (ds : List Int) (m : List (Int × Int))
    (d : Int) (h : ds.Nodup) :
    mapGet (ds.foldl (addDay pct) m) d =
      if d ∈ ds then some ((mapGet m d).getD 0 + pct) else mapGet m d := by
  induction ds generalizing m with
  | nil => simp
  | cons d0 t ih =>
    rw [List.foldl_cons]
    have hnd : t.Nodup := (List.nodup_cons.mp h).2
    have hd0 : d0 ∉ t := (List.nodup_cons.mp h).1
    rw [ih _ hnd]
    by_cases hmem : d ∈ t
    · have hne : d ≠ d0 := fun he => hd0 (he ▸ hmem)
      rw [if_pos hmem, if_pos (List.mem_cons_of_mem _ hmem), mapGet_addDay,
        if_neg hne]
    · rw [if_neg hmem, mapGet_addDay]
      by_cases hde : d = d0
      · subst hde
        rw [if_pos rfl, if_pos (List.mem_cons_self _ _)]
      · rw [if_neg hde, if_neg (by simp [hde, hmem])]

theorem nodup_keysOf_foldl_addDay (pct : Int) (ds : List Int)
    (m : List (Int × Int)) (h : (keysOf m).Nodup) :
    (keysOf (ds.foldl (addDay pct) m)).Nodup := by
  induction ds generalizing m with
  | nil => exact h
  | cons d0 t ih =>
    rw [List.foldl_cons]
    exact ih _ (keysOf_addDay_nodup pct m d0 h)

theorem mapGet_addAssignment (m : List (Int × Int)) (a : Assignment) (d : Int) :
    mapGet (addAssignment m a) d =
      if coversDay a d = true then
        some ((mapGet m d).getD 0 + a.allocationPercentage)
      else mapGet m d := by
  unfold addAssignment
  rw [mapGet_foldl_addDay _ _ _ _ (nodup_dayRange _ _)]
  by_cases hc : coversDay a d = true
  · rw [if_pos hc, if_pos ((mem_dayRange _ _ _).mpr (by
      unfold coversDay at hc
      simpa using hc))]
  · rw [if_neg hc, if_neg (fun hm => hc (by
      unfold coversDay
      have := (mem_dayRange _ _ _).mp hm
      simpa using this))]

theorem nodup_keysOf_addAssignment (m : List (Int × Int)) (a : Assignment)
    (h : (keysOf m).Nodup) : (keysOf (addAssignment m a)).Nodup :=
  nodup_keysOf_foldl_addDay _ _ _ h

theorem dayTotalList_cons (a : Assignment) (l : List Assignment) (d : Int) :
    dayTotalList (a :: l) d =
      (if coversDay a d = true then a.allocationPercentage else 0) +
        dayTotalList l d := by
  unfold dayTotalList
  rw [List.filter_cons]
  by_cases h : coversDay a d = true
  · rw [if_pos h, if_pos h, List.map_cons, List.sum_cons]
  · rw [if_neg h, if_neg h, zero_add]

theorem dayTotalList_of_not_any (l : List Assignment) (d : Int)
    (h : ¬(l.any (fun a => coversDay a d) = true)) : dayTotalList l d = 0 := by
  unfold dayTotalList
  rw [List.filter_eq_nil_iff.mpr]
  · rfl
  · intro a ha hc
    exact h (by simp only [List.any_eq_true]; exact ⟨a, ha, hc⟩)

theorem mapGet_foldl_addAssignment (l : List Assignment) (m : List (Int × Int))
    (d : Int) :
    mapGet (l.foldl addAssignment m) d =
      if l.any (fun a => coversDay a d) = true then
        some ((mapGet m d).getD 0 + dayTotalList l d)
      else mapGet m d := by
  induction l generalizing m with
  | nil => simp
  | cons a t ih =>
    rw [List.foldl_cons, ih]
    by_cases hc : coversDay a d = true
    · have hget : mapGet (addAssignment m a) d =
          some ((mapGet m d).getD 0 + a.allocationPercentage) := by
        rw [mapGet_addAssignment, if_pos hc]
      by_cases ht : t.any (fun a => coversDay a d) = true
      · rw [if_pos ht, if_pos (by simp [List.any_cons, ht]), hget,
          dayTotalList_cons, if_pos hc]
        simp only [Option.getD_some]
        congr 1
        ring
      · rw [if_neg ht, if_pos (by simp [List.any_cons, hc]), hget,
          dayTotalList_cons, if_pos hc, dayTotalList_of_not_any t d ht]
        congr 1
        ring
    · have hget : mapGet (addAssignment m a) d = mapGet m d := by
        rw [mapGet_addAssignment, if_neg hc]
      rw [hget, dayTotalList_cons, if_neg hc, zero_add]
      by_cases ht : t.any (fun a => coversDay a d) = true
      · rw [if_pos ht, if_pos (by simp [List.any_cons, ht])]
      · rw [if_neg ht, if_neg (by
          simp only [List.any_cons, Bool.or_eq_true]
          rintro (h | h)
          · exact hc h
          · exact ht h)]

theorem mapGet_buildTimeline (l : List Assignment) (d : Int) :
    mapGet (buildTimeline l) d =
      if l.any (fun a => coversDay a d) = true then some (dayTotalList l d)
      else none := by
  unfold buildTimeline
  rw [mapGet_foldl_addAssignment]
  by_cases h : l.any (fun a => coversDay a d) = true
  · rw [if_pos h, if_pos h]
    have hnil : mapGet [] d = none := rfl
    rw [hnil]
    simp
  · rw [if_neg h, if_neg h]
    rfl

theorem nodup_keysOf_buildTimeline (l : List Assignment) :
    (keysOf (buildTimeline l)).Nodup := by
  unfold buildTimeline
  have hgen : ∀ m : List (Int × Int), (keysOf m).Nodup →
      (keysOf (l.foldl addAssignment m)).Nodup := by
    induction l with
    | nil => exact fun m h => h
    | cons a t ih =>
      intro m h
      rw [List.foldl_cons]
      exact ih _ (nodup_keysOf_addAssignment m a h)
  exact hgen [] (by simp [keysOf])

theorem mapGet_eq_some_of_mem (m : List (Int × Int)) (d v : Int)
    (hnd : (keysOf m).Nodup) (h : (d, v) ∈ m) : mapGet m d = some v := by
  induction m with
  | nil => simp at h
  | cons p t ih =>
    rw [mapGet_cons]
    rcases List.mem_cons.mp h with he | ht
    · rw [if_pos (by rw [← he]), ← he]
    · have hkd : d ∈ keysOf t := List.mem_map.mpr ⟨(d, v), ht, rfl⟩
      have hp1 : p.1 ∉ keysOf t := by
        have := hnd
        unfold keysOf at this
        rw [List.map_cons, List.nodup_cons] at this
        exact this.1
      rw [if_neg (fun he => hp1 (by rw [he]; exact hkd))]
      refine ih ?_ ht
      unfold keysOf at hnd ⊢
      rw [List.map_cons, List.nodup_cons] at hnd
      exact hnd.2

theorem mem_of_mapGet_eq_some (m : List (Int × Int)) (d v : Int)
    (h : mapGet m d = some v) : (d, v) ∈ m := by
  unfold mapGet at h
  cases hf : m.find? (fun p => p.1 == d) with
  | none => rw [hf] at h; simp at h
  | some p =>
    rw [hf] at h
    simp at h
    have hp := List.find?_some hf
    have hm := List.mem_of_find?_eq_some hf
    have hpd : p.1 = d := by simpa using hp
    have hpv : p.2 = v := by simpa using h
    have : p = (d, v) := by
      cases p
      simp_all
    rwa [this] at hm

theorem mem_keysOf_iff (m : List (Int × Int)) (d : Int) :
    d ∈ keysOf m ↔ ∃ v, mapGet m d = some v := by
  constructor
  · intro h
    rcases List.mem_map.mp h with ⟨p, hp, hpk⟩
    cases hg : mapGet m d with
    | some v => exact ⟨v, rfl⟩
    | none =>
      exfalso
      unfold mapGet at hg
      have hnone : m.find? (fun q => q.1 == d) = none := by
        cases hf : m.find? (fun q => q.1 == d) with
        | none => rfl
        | some q => rw [hf] at hg; simp at hg
      rw [List.find?_eq_none] at hnone
      exact hnone p hp (by simp [hpk])
  · rintro ⟨v, hv⟩
    exact List.mem_map.mpr ⟨(d, v), mem_of_mapGet_eq_some _ _ _ hv, rfl⟩

theorem checkAvailability_allocations (stored : List Assignment) (eng : Nat)
    (s e : Int) :
    (checkAvailability stored eng s e).allocations =
      buildTimeline (stored.filter (overlapsQuery eng s e)) := rfl

theorem checkAvailability_isAvailable (stored : List Assignment) (eng : Nat)
    (s e : Int) :
    (checkAvailability stored eng s e).isAvailable =
      (buildTimeline (stored.filter (overlapsQuery eng s e))).all
        (fun p => decide (p.2 < 100)) := rfl

theorem query_and_covers (eng : Nat) (s e d : Int) (hs : s ≤ d) (he : d ≤ e)
    (a : Assignment) :
    (overlapsQuery eng s e a && coversDay a d) =
      (a.engineerId == eng && coversDay a d) := by
  unfold coversDay overlapsQuery
  by_cases h1 : a.engineerId = eng
  · have h1b : (a.engineerId == eng) = true := by simpa using h1
    by_cases h2 : a.startDate ≤ d
    · by_cases h3 : d ≤ a.endDate
      · have h4 : a.startDate ≤ e := le_trans h2 he
        have h5 : s ≤ a.endDate := le_trans hs h3
        simp [h1b, h2, h3, h4, h5]
      · simp [h1b, h2, h3]
    · simp [h1b, h2]
  · have h1b : (a.engineerId == eng) = false := by simpa using h1
    simp [h1b]

theorem covers_and_query (eng : Nat) (s e d : Int) (hs : s ≤ d) (he : d ≤ e)
    (a : Assignment) :
    (coversDay a d && overlapsQuery eng s e a) =
      (a.engineerId == eng && coversDay a d) := by
  rw [Bool.and_comm]
  exact query_and_covers eng s e d hs he a

/-- C2 counterexample input: one stored assignment at exactly 100
percent over days 0 to 4. -/
def c2Stored : List Assignment :=
  [⟨1, 1, 1, 100, 0, 4, "dev"⟩]

/-- C2 counterexample: on this input every accumulated day total is
exactly 100 and none exceeds 100, yet checkAvailability reports the
engineer unavailable, because the source tests `value < 100` rather
than `value <= 100`. -/
theorem day_at_exactly_100_reported_unavailable :
    (checkAvailability c2Stored 1 0 4).allocations =
      [(0, 100), (1, 100), (2, 100), (3, 100), (4, 100)] ∧
    (checkAvailability c2Stored 1 0 4).isAvailable = false := by
  constructor
  · rfl
  · rfl

/-- C2 (amended): in checkAvailability a day whose accumulated total is
exactly 100 yields `isAvailable = false`; a day triggers unavailability
iff its accumulated total is at least 100 (the source uses the strict
test `value < 100` for availability). -/
theorem isAvailable_false_iff_some_day_ge_100 (stored : List Assignment)
    (eng : Nat) (s e : Int) :
    (checkAvailability stored eng s e).isAvailable = false ↔
      ∃ d v, mapGet (checkAvailability stored eng s e).allocations d = some v ∧
        100 ≤ v := by
  have hnd : (keysOf (checkAvailability stored eng s e).allocations).Nodup := by
    rw [checkAvailability_allocations]
    exact nodup_keysOf_buildTimeline _
  rw [checkAvailability_isAvailable]
  constructor
  · intro hall
    rcases List.all_eq_false.mp hall with ⟨p, hp, hnp⟩
    refine ⟨p.1, p.2, ?_, ?_⟩
    · rw [checkAvailability_allocations]
      exact mapGet_eq_some_of_mem _ _ _
        (by rwa [checkAvailability_allocations] at hnd) hp
    · simp only [decide_eq_true_eq] at hnp
      omega
  · rintro ⟨d, v, hget, hge⟩
    rw [checkAvailability_allocations] at hget
    apply List.all_eq_false.mpr
    refine ⟨(d, v), mem_of_mapGet_eq_some _ _ _ hget, ?_⟩
    simp only [decide_eq_true_eq]
    omega

/-- C3 counterexample input (the Scenario A state of the spec): one
stored assignment at 60 percent over days 1 to 10. -/
def c3Stored : List Assignment :=
  [⟨1, 1, 1, 60, 1, 10, "dev"⟩]

/-- C3 counterexample: for the candidate window 5 to 15 at 30 percent,
the claim predicts `allocations[5] = 60 + 30 = 90`, but
checkAvailability takes no candidate percentage and returns 60 for
day 5. -/
theorem candidate_percentage_not_added :
    specAllocationWithCandidate c3Stored 1 5 15 30 5 = 90 ∧
    mapGet (checkAvailability c3Stored 1 5 15).allocations 5 = some 60 := by
  constructor
  · rfl
  · rfl

/-- C3 (amended): for a day inside the query window, the `allocations`
entry equals the exact sum of `allocationPercentage` over the stored
assignments of the engineer covering that day — with no candidate
contribution, since checkAvailability accepts no candidate percentage —
and the day is absent from the mapping when no assignment covers it. -/
theorem allocations_window_day_value (stored : List Assignment) (eng : Nat)
    (s e d : Int) (hs : s ≤ d) (he : d ≤ e) :
    mapGet (checkAvailability stored eng s e).allocations d =
      if stored.any (fun a => a.engineerId == eng && coversDay a d) = true
      then some (dayTotal stored eng d) else none := by
  rw [checkAvailability_allocations, mapGet_buildTimeline]
  have hany : ((stored.filter (overlapsQuery eng s e)).any
        (fun a => coversDay a d)) =
      (stored.any (fun a => a.engineerId == eng && coversDay a d)) := by
    rw [List.any_filter]
    rw [Bool.eq_iff_iff]
    simp only [List.any_eq_true]
    constructor
    · rintro ⟨a, ha, hpa⟩
      exact ⟨a, ha, by rwa [query_and_covers eng s e d hs he a] at hpa⟩
    · rintro ⟨a, ha, hpa⟩
      exact ⟨a, ha, by rwa [query_and_covers eng s e d hs he a]⟩
  have htot : dayTotalList (stored.filter (overlapsQuery eng s e)) d =
      dayTotal stored eng d := by
    unfold dayTotalList dayTotal
    rw [List.filter_filter]
    rw [List.filter_congr (fun a _ => covers_and_query eng s e d hs he a)]
  rw [hany, htot]

/-- C3 witness input. -/
def c3wStored : List Assignment :=
  [⟨1, 1, 1, 60, 1, 10, "dev"⟩, ⟨2, 1, 2, 25, 6, 20, "qa"⟩]

theorem allocations_window_day_value_witness :
    mapGet (checkAvailability c3wStored 1 5 15).allocations 7 = some 85 := by
  rw [allocations_window_day_value c3wStored 1 5 15 7 (by norm_num) (by norm_num)]
  rfl

/-- C7 counterexample input: one stored assignment over days 5 to 15,
queried with the window 10 to 12. -/
def c7Stored : List Assignment :=
  [⟨1, 1, 1, 50, 5, 15, "dev"⟩]

/-- C7 counterexample: the key list of `allocations` is the full day
range 5 to 15 of the stored assignment, not the window days 10 to 12:
days of the assignment outside the window do appear, and (second
conjunct) window days covered by no assignment are absent rather than
present with value zero. -/
theorem allocations_keys_not_window :
    ((checkAvailability c7Stored 1 10 12).allocations.map Prod.fst =
      [5, 6, 7, 8, 9, 10, 11, 12, 13, 14, 15]) ∧
    ((checkAvailability c7Stored 1 10 12).allocations.map Prod.fst ≠
      dayRange 10 12) ∧
    ((checkAvailability ([] : List Assignment) 1 10 12).allocations = []) := by
  refine ⟨rfl, by decide, rfl⟩

/-- C7 (amended): a day is a key of the returned `allocations` mapping
iff some stored assignment matching the overlap query covers it — over
the assignment's full `[startDate, endDate]` range, so days of an
overlapping assignment outside the window appear, and window days
covered by no assignment are absent. -/
theorem allocations_keys_characterization (stored : List Assignment) (eng : Nat)
    (s e d : Int) :
    d ∈ (checkAvailability stored eng s e).allocations.map Prod.fst ↔
      ∃ a ∈ stored, overlapsQuery eng s e a = true ∧ coversDay a d = true := by
  rw [show (checkAvailability stored eng s e).allocations.map Prod.fst =
      keysOf (checkAvailability stored eng s e).allocations from rfl,
    checkAvailability_allocations, mem_keysOf_iff]
  constructor
  · rintro ⟨v, hv⟩
    rw [mapGet_buildTimeline] at hv
    by_cases hany : ((stored.filter (overlapsQuery eng s e)).any
        (fun a => coversDay a d)) = true
    · rcases List.any_eq_true.mp hany with ⟨a, ha, hc⟩
      rcases List.mem_filter.mp ha with ⟨hmem, hq⟩
      exact ⟨a, hmem, hq, hc⟩
    · rw [if_neg hany] at hv
      exact absurd hv (by simp)
  · rintro ⟨a, hmem, hq, hc⟩
    rw [mapGet_buildTimeline, if_pos (List.any_eq_true.mpr
      ⟨a, List.mem_filter.mpr ⟨hmem, hq⟩, hc⟩)]
    exact ⟨_, rfl⟩

/-- C5 counterexample: called with windowEnd 3 strictly before
windowStart 5, checkAvailability raises nothing and returns the normal
verdict with `isAvailable = true` and empty allocations. -/
theorem inverted_window_produces_verdict :
    checkAvailability ([] : List Assignment) 1 5 3 =
      { isAvailable := true, allocations := [] } := rfl

/-- C5 (amended): checkAvailability performs no input validation: when
`windowEnd < windowStart` (and no stored assignment spans the inverted
window) it returns the verdict `isAvailable = true` with empty
allocations instead of failing, and it accepts no candidate
percentage, so no percentage error can arise. -/
theorem checkAvailability_no_range_validation (stored : List Assignment)
    (eng : Nat) (s e : Int) (hlt : e < s)
    (hno : ∀ a ∈ stored, ¬(a.startDate ≤ e ∧ s ≤ a.endDate)) :
    checkAvailability stored eng s e =
      { isAvailable := true, allocations := [] } := by
  have hfil : stored.filter (overlapsQuery eng s e) = [] := by
    rw [List.filter_eq_nil_iff]
    intro a ha hq
    unfold overlapsQuery at hq
    simp only [Bool.and_eq_true, decide_eq_true_eq] at hq
    exact hno a ha ⟨hq.1.2, hq.2⟩
  have h1 : checkAvailability stored eng s e =
      { isAvailable := (buildTimeline (stored.filter
          (overlapsQuery eng s e))).all (fun p => decide (p.2 < 100)),
        allocations := buildTimeline (stored.filter
          (overlapsQuery eng s e)) } := rfl
  rw [h1, hfil]
  rfl

theorem checkAvailability_no_range_validation_witness :
    checkAvailability ([] : List Assignment) 7 9 2 =
      { isAvailable := true, allocations := [] } :=
  checkAvailability_no_range_validation [] 7 9 2 (by norm_num)
    (by intro a ha; simp at ha)

/-- Two assignments that cover a common day have overlapping ranges. -/
theorem overlap_of_common_day (a b : Assignment) (d : Int)
    (ha : coversDay a d = true) (hb : coversDay b d = true) :
    a.startDate ≤ b.endDate ∧ b.startDate ≤ a.endDate := by
  unfold coversDay at ha hb
  simp only [Bool.and_eq_true, decide_eq_true_eq] at ha hb
  exact ⟨le_trans ha.1 hb.2, le_trans hb.1 ha.2⟩

theorem dayTotalList_lt_100 (l : List Assignment) (d : Int)
    (hpw : l.Pairwise
      (fun a b => ¬(a.startDate ≤ b.endDate ∧ b.startDate ≤ a.endDate)))
    (hlt : ∀ a ∈ l, a.allocationPercentage < 100) :
    dayTotalList l d < 100 := by
  have hsubpw : (l.filter (fun a => coversDay a d)).Pairwise
      (fun a b => ¬(a.startDate ≤ b.endDate ∧ b.startDate ≤ a.endDate)) :=
    hpw.sublist (List.filter_sublist l)
  cases hf : l.filter (fun a => coversDay a d) with
  | nil =>
    unfold dayTotalList
    rw [hf]
    norm_num
  | cons a t =>
    cases t with
    | nil =>
      unfold dayTotalList
      rw [hf]
      simp only [List.map_cons, List.map_nil, List.sum_cons, List.sum_nil,
        add_zero]
      have hmem : a ∈ l.filter (fun x => coversDay x d) := by
        rw [hf]
        exact List.mem_cons_self _ _
      exact hlt a (List.mem_of_mem_filter hmem)
    | cons b u =>
      exfalso
      rw [hf] at hsubpw
      have hdisj := (List.pairwise_cons.mp hsubpw).1 b (List.mem_cons_self _ _)
      have hamem : a ∈ l.filter (fun x => coversDay x d) := by
        rw [hf]
        exact List.mem_cons_self _ _
      have hbmem : b ∈ l.filter (fun x => coversDay x d) := by
        rw [hf]
        exact List.mem_cons_of_mem _ (List.mem_cons_self _ _)
      have ha := List.of_mem_filter hamem
      have hb := List.of_mem_filter hbmem
      exact hdisj (overlap_of_common_day a b d ha hb)

/-- C6 counterexample input: a single (hence pairwise non-overlapping)
stored assignment at exactly 100 percent. -/
def c6Stored : List Assignment :=
  [⟨1, 1, 1, 100, 20, 24, "dev"⟩]

/-- C6 counterexample: the set is pairwise non-overlapping and its
percentage lies in [0, 100], yet checkAvailability reports
`isAvailable = false`, because the day totals equal 100 and the source
tests `value < 100`. -/
theorem nonoverlapping_full_allocation_unavailable :
    c6Stored.Pairwise
      (fun a b => ¬(a.startDate ≤ b.endDate ∧ b.startDate ≤ a.endDate)) ∧
    (∀ a ∈ c6Stored,
      0 ≤ a.allocationPercentage ∧ a.allocationPercentage ≤ 100) ∧
    (checkAvailability c6Stored 1 20 24).isAvailable = false := by
  refine ⟨List.pairwise_singleton _ _, by decide, rfl⟩

/-- C6 (amended): for every set of stored assignments whose date ranges
are pairwise non-overlapping and whose percentages are all strictly
below 100, checkAvailability returns `isAvailable = true` (at exactly
100 the code reports unavailable, see C2). -/
theorem nonoverlapping_below_100_available (stored : List Assignment)
    (eng : Nat) (s e : Int)
    (hpw : stored.Pairwise
      (fun a b => ¬(a.startDate ≤ b.endDate ∧ b.startDate ≤ a.endDate)))
    (hlt : ∀ a ∈ stored, a.allocationPercentage < 100) :
    (checkAvailability stored eng s e).isAvailable = true := by
  rw [checkAvailability_isAvailable, List.all_eq_true]
  intro p hp
  have hnd := nodup_keysOf_buildTimeline (stored.filter (overlapsQuery eng s e))
  have hget := mapGet_eq_some_of_mem _ p.1 p.2 hnd hp
  rw [mapGet_buildTimeline] at hget
  by_cases hany : ((stored.filter (overlapsQuery eng s e)).any
      (fun a => coversDay a p.1)) = true
  · rw [if_pos hany] at hget
    have hval : dayTotalList (stored.filter (overlapsQuery eng s e)) p.1 = p.2 := by
      injection hget
    have hlt2 : dayTotalList (stored.filter (overlapsQuery eng s e)) p.1 < 100 :=
      dayTotalList_lt_100 _ _ (hpw.sublist (List.filter_sublist stored))
        (fun a ha => hlt a (List.mem_of_mem_filter ha))
    simp only [decide_eq_true_eq]
    omega
  · rw [if_neg hany] at hget
    exact absurd hget (by simp)

/-- C6 witness input: two non-overlapping assignments below 100. -/
def c6wStored : List Assignment :=
  [⟨1, 1, 1, 60, 1, 10, "dev"⟩, ⟨2, 1, 1, 70, 11, 15, "qa"⟩]

theorem nonoverlapping_below_100_available_witness :
    (checkAvailability c6wStored 1 1 15).isAvailable = true :=
  nonoverlapping_below_100_available c6wStored 1 1 15
    (by
      unfold c6wStored
      refine List.Pairwise.cons ?_ (List.pairwise_singleton _ _)
      intro b hb
      rw [List.mem_singleton] at hb
      subst hb
      decide)
    (by decide)

/-- C8: checkAvailability is deterministic: two calls on equal inputs
(engineer, window and stored assignment collection) return equal
verdicts.  The embedding is a pure function of its inputs, faithful to
the source, which copies each assignment start date
(`new Date(assignment.startDate)`) before stepping it and builds a
fresh Map per call, mutating nothing it is given. -/
theorem checkAvailability_deterministic (stored1 stored2 : List Assignment)
    (eng : Nat) (s e : Int) (h : stored1 = stored2) :
    checkAvailability stored1 eng s e = checkAvailability stored2 eng s e := by
  rw [h]

/-- C8 witness input. -/
def c8Stored : List Assignment :=
  [⟨1, 1, 1, 40, 1, 5, "dev"⟩]

theorem checkAvailability_deterministic_witness :
    checkAvailability c8Stored 1 1 5 = checkAvailability c8Stored 1 1 5 :=
  checkAvailability_deterministic c8Stored c8Stored 1 1 5 rfl

theorem foldl_add_allocation (l : List Assignment) (init : Int) :
    l.foldl (fun sum a => sum + a.allocationPercentage) init =
      init + (l.map (fun a => a.allocationPercentage)).sum := by
  induction l generalizing init with
  | nil => simp
  | cons a t ih =>
    rw [List.foldl_cons, ih, List.map_cons, List.sum_cons]
    ring

theorem sum_filter_le_sum_filter (l : List Assignment) (p q : Assignment → Bool)
    (himp : ∀ a ∈ l, p a = true → q a = true)
    (hpos : ∀ a ∈ l, 0 ≤ a.allocationPercentage) :
    ((l.filter p).map (fun a => a.allocationPercentage)).sum ≤
      ((l.filter q).map (fun a => a.allocationPercentage)).sum := by
  induction l with
  | nil => simp
  | cons a t ih =>
    have ih2 := ih (fun x hx => himp x (List.mem_cons_of_mem a hx))
      (fun x hx => hpos x (List.mem_cons_of_mem a hx))
    rw [List.filter_cons, List.filter_cons]
    by_cases hp : p a = true
    · rw [if_pos hp, if_pos (himp a (List.mem_cons_self a t) hp),
        List.map_cons, List.sum_cons, List.map_cons, List.sum_cons]
      exact add_le_add_left ih2 _
    · rw [if_neg hp]
      by_cases hq : q a = true
      · rw [if_pos hq, List.map_cons, List.sum_cons]
        have h0 := hpos a (List.mem_cons_self a t)
        linarith
      · rw [if_neg hq]
        exact ih2

/-- C9: the save-time capacity validator is sound for the per-day
invariant: when it accepts a new assignment (candidate percentage plus
the sum of the full `allocationPercentage` of every stored assignment
overlapping the candidate range is at most 100), then on every day of
the candidate range the candidate percentage plus the sum over stored
assignments covering that day is at most 100.  The hypotheses record
the schema bound `min: 0` on stored percentages and the freshness of
the Mongo id of a new document. -/
theorem allocationValidator_sound (stored : List Assignment) (cand : Assignment)
    (hpos : ∀ a ∈ stored, 0 ≤ a.allocationPercentage)
    (hid : ∀ a ∈ stored, a.id ≠ cand.id)
    (hacc : allocationValidator stored cand cand.allocationPercentage
      true false = true)
    (d : Int) (hsd : cand.startDate ≤ d) (hde : d ≤ cand.endDate) :
    cand.allocationPercentage + dayTotal stored cand.engineerId d ≤ 100 := by
  simp only [allocationValidator, Bool.true_or, if_true,
    decide_eq_true_eq] at hacc
  rw [foldl_add_allocation] at hacc
  have hmono := sum_filter_le_sum_filter stored
    (fun a => a.engineerId == cand.engineerId && coversDay a d)
    (fun a => a.engineerId == cand.engineerId && !(a.id == cand.id) &&
      decide (a.startDate ≤ cand.endDate) && decide (cand.startDate ≤ a.endDate))
    (fun a ha hpa => by
      simp only [Bool.and_eq_true, beq_iff_eq] at hpa
      obtain ⟨heq, hcov⟩ := hpa
      unfold coversDay at hcov
      simp only [Bool.and_eq_true, decide_eq_true_eq] at hcov
      simp only [Bool.and_eq_true, beq_iff_eq, decide_eq_true_eq,
        Bool.not_eq_true', beq_eq_false_iff_ne]
      exact ⟨⟨⟨heq, hid a ha⟩, by omega⟩, by omega⟩)
    hpos
  unfold dayTotal
  linarith

/-- C9 witness inputs. -/
def c9Stored : List Assignment :=
  [⟨1, 1, 1, 40, 1, 10, "dev"⟩]

/-- C9 witness candidate. -/
def c9Cand : Assignment := ⟨2, 1, 2, 50, 5, 15, "qa"⟩

theorem allocationValidator_sound_witness :
    c9Cand.allocationPercentage + dayTotal c9Stored c9Cand.engineerId 7 ≤ 100 :=
  allocationValidator_sound c9Stored c9Cand (by decide) (by decide) (by decide)
    7 (by decide) (by decide)

theorem addAssignment_map_engineer (m : List (Int × Int)) (a : Assignment)
    (newEng : Nat) :
    addAssignment m { a with engineerId := newEng } = addAssignment m a := rfl

theorem buildTimeline_map_engineer (l : List Assignment) (newEng : Nat) :
    buildTimeline (l.map (fun a => { a with engineerId := newEng })) =
      buildTimeline l := by
  unfold buildTimeline
  have hgen : ∀ m : List (Int × Int),
      (l.map (fun a => { a with engineerId := newEng })).foldl addAssignment m =
        l.foldl addAssignment m := by
    induction l with
    | nil => intro m; rfl
    | cons a t ih =>
      intro m
      rw [List.map_cons, List.foldl_cons, List.foldl_cons,
        addAssignment_map_engineer]
      exact ih _
  exact hgen []

/-- C10: the availability verdict never reads `maxCapacity`:
checkAvailability compares day totals against the constant 100, so two
engineers with identical assignment sets (up to the engineer id on the
assignments) but different `maxCapacity` values receive the same
verdict. -/
theorem verdict_independent_of_maxCapacity (u1 u2 : User)
    (stored : List Assignment) (s e : Int)
    (hrole1 : u1.role = "engineer") (hrole2 : u2.role = "engineer")
    (hcap : u1.maxCapacity ≠ u2.maxCapacity)
    (hown : ∀ a ∈ stored, a.engineerId = u1.id) :
    checkAvailability (stored.map (fun a => { a with engineerId := u2.id }))
        u2.id s e =
      checkAvailability stored u1.id s e := by
  have hfil :
      (stored.map (fun a => { a with engineerId := u2.id })).filter
          (overlapsQuery u2.id s e) =
        (stored.filter (overlapsQuery u1.id s e)).map
          (fun a => { a with engineerId := u2.id }) := by
    rw [List.filter_map]
    congr 1
    apply List.filter_congr
    intro a ha
    unfold overlapsQuery
    simp [hown a ha]
  have hkey : buildTimeline ((stored.map
        (fun a => { a with engineerId := u2.id })).filter
        (overlapsQuery u2.id s e)) =
      buildTimeline (stored.filter (overlapsQuery u1.id s e)) := by
    rw [hfil, buildTimeline_map_engineer]
  have e1 : checkAvailability (stored.map
        (fun a => { a with engineerId := u2.id })) u2.id s e =
      { isAvailable := (buildTimeline ((stored.map
            (fun a => { a with engineerId := u2.id })).filter
            (overlapsQuery u2.id s e))).all (fun p => decide (p.2 < 100)),
        allocations := buildTimeline ((stored.map
            (fun a => { a with engineerId := u2.id })).filter
            (overlapsQuery u2.id s e)) } := rfl
  have e2 : checkAvailability stored u1.id s e =
      { isAvailable := (buildTimeline (stored.filter
            (overlapsQuery u1.id s e))).all (fun p => decide (p.2 < 100)),
        allocations := buildTimeline (stored.filter
            (overlapsQuery u1.id s e)) } := rfl
  rw [e1, e2, hkey]

/-- C10 witness: engineer user with maxCapacity 100. -/
def c10u1 : User :=
  ⟨1, "a@x.dev", "hash1", "Dana", "engineer", ["js"], some "mid", 100,
    some "core"⟩

/-- C10 witness: engineer user with maxCapacity 50. -/
def c10u2 : User :=
  ⟨2, "b@x.dev", "hash2", "Sam", "engineer", ["js"], some "mid", 50,
    some "core"⟩

/-- C10 witness assignments. -/
def c10Stored : List Assignment :=
  [⟨1, 1, 1, 60, 1, 10, "dev"⟩]

theorem verdict_independent_of_maxCapacity_witness :
    checkAvailability (c10Stored.map (fun a => { a with engineerId := c10u2.id }))
        c10u2.id 1 10 =
      checkAvailability c10Stored c10u1.id 1 10 :=
  verdict_independent_of_maxCapacity c10u1 c10u2 c10Stored 1 10 rfl rfl
    (by decide) (by decide)

theorem dayTotal_nil (eng : Nat) (d : Int) : dayTotal [] eng d = 0 := rfl

theorem dayTotal_cons (a : Assignment) (l : List Assignment) (eng : Nat)
    (d : Int) :
    dayTotal (a :: l) eng d =
      (if a.engineerId = eng ∧ a.startDate ≤ d ∧ d ≤ a.endDate
       then a.allocationPercentage else 0) + dayTotal l eng d := by
  unfold dayTotal coversDay
  rw [List.filter_cons]
  by_cases h : a.engineerId = eng ∧ a.startDate ≤ d ∧ d ≤ a.endDate
  · rw [if_pos (show (a.engineerId == eng &&
        (decide (a.startDate ≤ d) && decide (d ≤ a.endDate))) = true by
        simp [h.1, h.2.1, h.2.2]), if_pos h, List.map_cons, List.sum_cons]
  · rw [if_neg (fun hb => h (by simpa using hb)), if_neg h, zero_add]

/-- C1 counterexample state: two assignments of engineer 1 at 60
percent each, over the disjoint ranges 1 to 10 and 20 to 30; every
day total is at most 100. -/
def c1Stored : List Assignment :=
  [⟨1, 1, 1, 60, 1, 10, "dev"⟩, ⟨2, 1, 1, 60, 20, 30, "dev"⟩]

/-- C1 request body: a PATCH that moves assignment 2 onto days 1 to 10
without touching `allocationPercentage`. -/
def c1Body : UpdateBody := ⟨none, some 1, some 10, none⟩

/-- The collection after the PATCH of `c1Body` is accepted. -/
def c1After : List Assignment :=
  [⟨1, 1, 1, 60, 1, 10, "dev"⟩, ⟨2, 1, 1, 60, 1, 10, "dev"⟩]

/-- C1: a date-only update bypasses every capacity check and breaks
the per-day invariant.  The PATCH route checks capacity only when
`req.body.allocationPercentage` is truthy, and the schema validator
fires only when the document is new or `allocationPercentage` was
modified, so moving assignment 2 onto days 1 to 10 is accepted and
leaves engineer 1 at 120 percent on days 1 to 10 although the prior
state satisfied the invariant everywhere. -/
theorem date_only_update_breaks_invariant :
    patchAssignment c1Stored 2 c1Body = UpdateResult.ok c1After ∧
    (∀ d : Int, dayTotal c1Stored 1 d ≤ 100) ∧
    dayTotal c1After 1 5 = 120 := by
  refine ⟨rfl, ?_, rfl⟩
  intro d
  show dayTotal c1Stored 1 d ≤ 100
  unfold c1Stored
  rw [dayTotal_cons, dayTotal_cons, dayTotal_nil]
  dsimp only
  split_ifs <;> omega

/-- C4 state: one stored assignment of engineer 1 at the full 100
percent over days 1 to 10 (a state the create route accepts). -/
def c4Stored : List Assignment :=
  [⟨1, 1, 1, 100, 1, 10, "dev"⟩]

/-- C4 request body: lower the percentage of assignment 1 to 50. -/
def c4Body : UpdateBody := ⟨some 50, none, none, none⟩

/-- C4: the PATCH capacity pre-check calls checkAvailability without
excluding the assignment being updated, so the assignment counts
against its own prior allocation: lowering a full-capacity assignment
from 100 to 50 percent is rejected with a capacity conflict, although
the save-time validator (which does exclude the document by id) would
accept the new value. -/
theorem patch_counts_assignment_against_itself :
    createAssignment ([] : List Assignment) ⟨1, 1, 1, 100, 1, 10, "dev"⟩ =
      CreateResult.ok c4Stored ∧
    patchAssignment c4Stored 1 c4Body =
      UpdateResult.capacityConflict
        [(1, 100), (2, 100), (3, 100), (4, 100), (5, 100),
         (6, 100), (7, 100), (8, 100), (9, 100), (10, 100)] ∧
    allocationValidator c4Stored ⟨1, 1, 1, 50, 1, 10, "dev"⟩ 50 false true =
      true := by
  refine ⟨rfl, rfl, rfl⟩

end EmpMgmt
